import Mathlib

/-!
Shallow embedding of the `logicalcluster` Go package (files `name.go` and
`path.go`): two immutable wrappers around a string, `Name` (one hierarchy
segment) and `Path` (a colon-separated sequence of segments), together with
the segment grammars used by their validators, the split/join/parent
operations and the annotation-based lookup.  Go strings are modelled as
`List Char`; the two anchored regular expressions of the package are
rendered as executable matchers over `List Char`.
-/

namespace Logicalcluster

/-- Character class `[a-z0-9]` appearing in both regular expressions. -/
def isLowerAlnum (c : Char) : Bool :=
  (decide ('a' ≤ c) && decide (c ≤ 'z')) || (decide ('0' ≤ c) && decide (c ≤ '9'))

/-- Character class `[a-z0-9-]` appearing in both regular expressions. -/
def isLowerAlnumHyphen (c : Char) : Bool :=
  isLowerAlnum c || decide (c = '-')

/-- `Path` from `path.go`: an immutable wrapper around one string value. -/
structure Path where
  value : List Char
deriving DecidableEq, Repr

/-- `New` from `path.go`: wrap an arbitrary string, no validation. -/
def New (value : List Char) : Path := ⟨value⟩

/-- `Wildcard` from `path.go`: the path wrapping the literal string `"*"`. -/
def Wildcard : Path := ⟨['*']⟩

/-- `Name` from `name.go`: `type Name string`. -/
abbrev Name := List Char

/-- Helper for `strings.LastIndex(value, ":")`: returns the pieces strictly
before and strictly after the last `':'` of the list, or `none` when the
list contains no `':'`. -/
def splitLastColon : List Char → Option (List Char × List Char)
  | [] => none
  | c :: rest =>
    match splitLastColon rest with
    | some (b, a) => some (c :: b, a)
    | none => if c = ':' then some ([], rest) else none

/-- `Path.Split` from `path.go`: split at the last `':'`; when there is
none, the parent is the empty path and the name is the whole value. -/
def Path.Split (n : Path) : Path × List Char :=
  match splitLastColon n.value with
  | none => (⟨[]⟩, n.value)
  | some (b, a) => (⟨b⟩, a)

/-- `Path.Parent` from `path.go`: first component of `Split`, with the
boolean `parent.value != ""`. -/
def Path.Parent (n : Path) : Path × Bool :=
  (n.Split.1, decide (n.Split.1.value ≠ []))

/-- `Path.Name` from `path.go`: `("", false)` when `Parent` reports a
parent, otherwise the stored value as a `Name` together with `true`. -/
def Path.Name (n : Path) : Name × Bool :=
  if n.Parent.2 then ([], false) else (n.value, true)

/-- `Path.Base` from `path.go`: second component of `Split`. -/
def Path.Base (n : Path) : List Char :=
  n.Split.2

/-- `Path.Join` from `path.go`: append one segment, inserting a `':'`
unless the current value is empty. -/
def Path.Join (n : Path) (name : List Char) : Path :=
  if n.value = [] then ⟨name⟩ else ⟨n.value ++ ':' :: name⟩

/-- `strings.HasPrefix(s, pre)` from the Go standard library: `s` starts
with the exact characters of `pre`. -/
def strStartsWith : List Char → List Char → Bool
  | _, [] => true
  | [], _ :: _ => false
  | c :: s', d :: pre' => decide (c = d) && strStartsWith s' pre'

/-- `Path.HasPrefix` from `path.go`: `strings.HasPrefix(n.value, other.value)`,
a raw string prefix test. -/
def Path.HasPrefix (n other : Path) : Bool :=
  strStartsWith n.value other.value

/-- The optional tail `([a-z0-9-]{0,61}[a-z0-9])` of a segment, matched
against a non-empty remainder: at most 62 characters, all but the last in
`[a-z0-9-]`, the last in `[a-z0-9]`. -/
def tailMatch (s : List Char) : Bool :=
  decide (s.length ≤ 62) && s.dropLast.all isLowerAlnumHyphen &&
    (match s.getLast? with
     | some c => isLowerAlnum c
     | none => false)

/-- One segment of the path grammar, `lclusterNameFmt` from `path.go`:
`[a-z0-9]([a-z0-9-]{0,61}[a-z0-9])?`. -/
def segMatch : List Char → Bool
  | [] => false
  | [c] => isLowerAlnum c
  | c :: rest => isLowerAlnum c && tailMatch rest

/-- Splitting a string at every `':'`; the result is always non-empty and
keeps empty pieces (so `":x"` yields `["", "x"]`). -/
def splitOnColon : List Char → List (List Char)
  | [] => [[]]
  | c :: rest =>
    if c = ':' then [] :: splitOnColon rest
    else
      match splitOnColon rest with
      | [] => [[c]]
      | w :: ws => (c :: w) :: ws

/-- Matching the anchored repeated-segment regular expression
`^lclusterNameFmt(:lclusterNameFmt)*$` compiled in `path.go`.  Since `':'`
belongs to no character class of `lclusterNameFmt`, a string matches
exactly when each of its `':'`-separated pieces matches one segment. -/
def pathMatch (s : List Char) : Bool :=
  (splitOnColon s).all segMatch

/-- `Path.IsValid` from `path.go`: the wildcard, or a match of the
repeated-segment regular expression. -/
def Path.IsValid (n : Path) : Bool :=
  decide (n = Wildcard) || pathMatch n.value

/-- Matching `clusterNameString = ^[a-z0-9][a-z0-9-]{0,61}[a-z0-9]$` from
`name.go` (the tail group is not optional here, so length ≥ 2). -/
def clusterNameMatch : List Char → Bool
  | [] => false
  | c :: rest => isLowerAlnum c && tailMatch rest

/-- `Name.IsValid` from `name.go`. -/
def Name.IsValid (n : Name) : Bool := clusterNameMatch n

/-- `Name.Empty` from `name.go`: `n == ""`. -/
def Name.Empty (n : Name) : Bool := decide (n = [])

/-- `Name.Path` from `name.go`: `New(string(n))`. -/
def Name.Path (n : Name) : Path := New n

/-- `Object` from `name.go`: anything exposing an annotations map, modelled
as an association list from strings to strings. -/
structure Object where
  annots : List (List Char × List Char)

/-- `AnnotationKey` from `name.go`: `"kcp.dev/cluster"`. -/
def AnnotationKey : List Char := "kcp.dev/cluster".data

/-- Go map indexing `m[k]`: the stored value, or the zero value `""` when
the key is absent (also when the map is nil, modelled as `[]`). -/
def mapGet (m : List (List Char × List Char)) (k : List Char) : List Char :=
  match m.lookup k with
  | some v => v
  | none => []

/-- `From` from `name.go`: `Name(obj.GetAnnotations()[AnnotationKey])`. -/
def From (obj : Object) : Name := mapGet obj.annots AnnotationKey

/-- Concatenating a list of segments with `':'` between consecutive ones. -/
def joinColon : List (List Char) → List Char
  | [] => []
  | [w] => w
  | w :: w2 :: ws => w ++ ':' :: joinColon (w2 :: ws)

/-- Spec-side segment grammar, following the spec text: length 1 to 63,
first and last characters lower-case alphanumeric, interior characters
lower-case alphanumeric or hyphen. -/
def segSpec (s : List Char) : Bool :=
  decide (1 ≤ s.length) && decide (s.length ≤ 63) &&
  (match s.head? with | some c => isLowerAlnum c | none => false) &&
  (match s.getLast? with | some c => isLowerAlnum c | none => false) &&
  s.tail.dropLast.all isLowerAlnumHyphen

/-- Spec-side name grammar, following the spec text for
`^[a-z0-9][a-z0-9-]{0,61}[a-z0-9]$`: length 2 to 63, first and last
characters lower-case alphanumeric, interior lower-case alphanumeric or
hyphen. -/
def nameSpec (s : List Char) : Bool :=
  decide (2 ≤ s.length) && decide (s.length ≤ 63) &&
  (match s.head? with | some c => isLowerAlnum c | none => false) &&
  (match s.getLast? with | some c => isLowerAlnum c | none => false) &&
  s.tail.dropLast.all isLowerAlnumHyphen

/-- Amended success condition for `Path.Name`: the value contains no `':'`
at all, or its only `':'` is the very first character. -/
def nameSucceeds (s : List Char) : Bool :=
  !(decide (':' ∈ s)) ||
    (match s with
     | c :: rest => decide (c = ':') && !(decide (':' ∈ rest))
     | [] => false)

theorem splitLastColon_eq_none (s : List Char) :
    splitLastColon s = none ↔ ':' ∉ s := by
  induction s with
  | nil => simp [splitLastColon]
  | cons c rest ih =>
    rw [splitLastColon]
    cases h : splitLastColon rest with
    | some p =>
      obtain ⟨b, a⟩ := p
      have hmem : ':' ∈ rest := by
        by_contra hn
        rw [ih.mpr hn] at h
        exact Option.noConfusion h
      simp [List.mem_cons, hmem]
    | none =>
      have hn : ':' ∉ rest := ih.mp h
      by_cases hc : c = ':'
      · simp [hc, List.mem_cons]
      · simp only [hc, if_false, List.mem_cons, true_iff]
        intro hmem
        rcases hmem with h1 | h2
        · exact hc h1.symm
        · exact hn h2

theorem splitLastColon_eq_some (s b a : List Char)
    (h : splitLastColon s = some (b, a)) : s = b ++ ':' :: a ∧ ':' ∉ a := by
  induction s generalizing b a with
  | nil => exact Option.noConfusion h
  | cons c rest ih =>
    rw [splitLastColon] at h
    cases hr : splitLastColon rest with
    | some p =>
      obtain ⟨b', a'⟩ := p
      rw [hr] at h
      simp only [Option.some.injEq, Prod.mk.injEq] at h
      obtain ⟨hb, ha⟩ := h
      obtain ⟨hs, hna⟩ := ih b' a' hr
      subst hb
      subst ha
      exact ⟨by rw [hs]; rfl, hna⟩
    | none =>
      rw [hr] at h
      by_cases hc : c = ':'
      · rw [if_pos hc] at h
        simp only [Option.some.injEq, Prod.mk.injEq] at h
        obtain ⟨hb, ha⟩ := h
        subst hc
        rw [← hb, ← ha]
        exact ⟨rfl, (splitLastColon_eq_none rest).mp hr⟩
      · rw [if_neg hc] at h
        exact Option.noConfusion h

theorem splitLastColon_append (a b : List Char) (hb : ':' ∉ b) :
    splitLastColon (a ++ ':' :: b) = some (a, b) := by
  induction a with
  | nil =>
    rw [List.nil_append, splitLastColon, (splitLastColon_eq_none b).mpr hb]
    simp
  | cons c a' ih =>
    rw [List.cons_append, splitLastColon, ih]

theorem splitOnColon_ne_nil (s : List Char) : splitOnColon s ≠ [] := by
  induction s with
  | nil => simp [splitOnColon]
  | cons c rest _ =>
    rw [splitOnColon]
    by_cases hc : c = ':'
    · simp [hc]
    · simp only [hc, if_false]
      cases h : splitOnColon rest <;> simp

theorem splitOnColon_no_colon (s : List Char) (h : ':' ∉ s) :
    splitOnColon s = [s] := by
  induction s with
  | nil => rfl
  | cons c rest ih =>
    have hc : ¬(c = ':') := fun hv => h (by rw [hv]; exact List.mem_cons_self _ _)
    have hrest : ':' ∉ rest := fun hr => h (List.mem_cons_of_mem _ hr)
    rw [splitOnColon, if_neg hc, ih hrest]

theorem splitOnColon_append (w t : List Char) (hw : ':' ∉ w) :
    splitOnColon (w ++ ':' :: t) = w :: splitOnColon t := by
  induction w with
  | nil => simp [splitOnColon]
  | cons c w' ih =>
    have hc : ¬(c = ':') := fun hv => hw (by rw [hv]; exact List.mem_cons_self _ _)
    have hw' : ':' ∉ w' := fun hr => hw (List.mem_cons_of_mem _ hr)
    rw [List.cons_append, splitOnColon, if_neg hc, ih hw']

theorem joinColon_splitOnColon (s : List Char) :
    joinColon (splitOnColon s) = s := by
  induction s with
  | nil => decide
  | cons c rest ih =>
    rw [splitOnColon]
    by_cases hc : c = ':'
    · rw [if_pos hc]
      cases h : splitOnColon rest with
      | nil => exact absurd h (splitOnColon_ne_nil rest)
      | cons w ws =>
        rw [h] at ih
        simp only [joinColon, List.nil_append]
        rw [ih, hc]
    · rw [if_neg hc]
      cases h : splitOnColon rest with
      | nil => exact absurd h (splitOnColon_ne_nil rest)
      | cons w ws =>
        rw [h] at ih
        cases ws with
        | nil =>
          simp only [joinColon] at ih ⊢
          rw [ih]
        | cons w2 ws2 =>
          simp only [joinColon] at ih ⊢
          rw [List.cons_append, ih]

theorem splitOnColon_joinColon (segs : List (List Char)) (hne : segs ≠ [])
    (hc : ∀ seg ∈ segs, ':' ∉ seg) :
    splitOnColon (joinColon segs) = segs := by
  induction segs with
  | nil => exact absurd rfl hne
  | cons w ws ih =>
    cases ws with
    | nil =>
      simp only [joinColon]
      exact splitOnColon_no_colon w (hc w (List.mem_cons_self _ _))
    | cons w2 ws2 =>
      simp only [joinColon]
      rw [splitOnColon_append w _ (hc w (List.mem_cons_self _ _)),
        ih (by simp) (fun seg hs => hc seg (List.mem_cons_of_mem _ hs))]

theorem tailMatch_chars (t : List Char) (h : tailMatch t = true) :
    ∀ c ∈ t, isLowerAlnumHyphen c = true := by
  intro c hc
  have hne : t ≠ [] := by rintro rfl; simp [tailMatch] at h
  rw [tailMatch, List.getLast?_eq_getLast_of_ne_nil hne] at h
  simp only [Bool.and_eq_true] at h
  obtain ⟨⟨_, hall⟩, hlast⟩ := h
  rw [← List.dropLast_append_getLast hne] at hc
  rcases List.mem_append.mp hc with h1 | h2
  · exact List.all_eq_true.mp hall c h1
  · rw [List.mem_singleton] at h2
    rw [h2]
    simp [isLowerAlnumHyphen, hlast]

theorem segMatch_chars (s : List Char) (h : segMatch s = true) :
    ∀ c ∈ s, isLowerAlnumHyphen c = true := by
  intro c hc
  cases s with
  | nil => simp at hc
  | cons c0 rest =>
    cases rest with
    | nil =>
      rw [segMatch] at h
      rw [List.mem_singleton] at hc
      rw [hc]
      simp [isLowerAlnumHyphen, h]
    | cons c1 rest1 =>
      have h' : (isLowerAlnum c0 && tailMatch (c1 :: rest1)) = true := h
      simp only [Bool.and_eq_true] at h'
      rcases List.mem_cons.mp hc with rfl | hmem
      · simp [isLowerAlnumHyphen, h'.1]
      · exact tailMatch_chars _ h'.2 c hmem

theorem segMatch_no_colon (s : List Char) (h : segMatch s = true) : ':' ∉ s :=
  fun hc => absurd (segMatch_chars s h ':' hc) (by decide)

theorem clusterNameMatch_segMatch (s : List Char) (h : clusterNameMatch s = true) :
    segMatch s = true := by
  cases s with
  | nil => simp [clusterNameMatch] at h
  | cons c rest =>
    cases rest with
    | nil => simp [clusterNameMatch, tailMatch] at h
    | cons c1 r1 =>
      have h' : (isLowerAlnum c && tailMatch (c1 :: r1)) = true := h
      exact h'

theorem segMatch_iff_segSpec (s : List Char) :
    segMatch s = true ↔ segSpec s = true := by
  cases s with
  | nil => simp [segMatch, segSpec]
  | cons c rest =>
    cases rest with
    | nil => simp [segMatch, segSpec]
    | cons c1 r1 =>
      have hne : (c1 :: r1) ≠ ([] : List Char) := by simp
      have hdef : segMatch (c :: c1 :: r1) = (isLowerAlnum c && tailMatch (c1 :: r1)) := rfl
      simp only [hdef, segSpec, tailMatch, List.getLast?_cons_cons,
        List.getLast?_eq_getLast_of_ne_nil hne, List.head?_cons, List.tail_cons,
        List.length_cons, Bool.and_eq_true, decide_eq_true_eq, and_assoc]
      constructor
      · rintro ⟨h0, hlen, hall, hlast⟩
        exact ⟨by omega, by omega, h0, hlast, hall⟩
      · rintro ⟨-, hlen, h0, hlast, hall⟩
        exact ⟨h0, by omega, hall, hlast⟩

theorem clusterNameMatch_iff_nameSpec (s : List Char) :
    clusterNameMatch s = true ↔ nameSpec s = true := by
  cases s with
  | nil => simp [clusterNameMatch, nameSpec]
  | cons c rest =>
    cases rest with
    | nil => simp [clusterNameMatch, nameSpec, tailMatch]
    | cons c1 r1 =>
      have hne : (c1 :: r1) ≠ ([] : List Char) := by simp
      simp only [clusterNameMatch, nameSpec, tailMatch, List.getLast?_cons_cons,
        List.getLast?_eq_getLast_of_ne_nil hne, List.head?_cons, List.tail_cons,
        List.length_cons, Bool.and_eq_true, decide_eq_true_eq, and_assoc]
      constructor
      · rintro ⟨h0, hlen, hall, hlast⟩
        exact ⟨by omega, by omega, h0, hlast, hall⟩
      · rintro ⟨-, hlen, h0, hlast, hall⟩
        exact ⟨h0, by omega, hall, hlast⟩

theorem pathMatch_iff (s : List Char) :
    pathMatch s = true ↔
      ∃ segs : List (List Char), segs ≠ [] ∧ s = joinColon segs ∧
        ∀ seg ∈ segs, segSpec seg = true := by
  constructor
  · intro h
    rw [pathMatch] at h
    refine ⟨splitOnColon s, splitOnColon_ne_nil s, (joinColon_splitOnColon s).symm, ?_⟩
    intro seg hs
    exact (segMatch_iff_segSpec seg).mp (List.all_eq_true.mp h seg hs)
  · rintro ⟨segs, hne, rfl, hall⟩
    have hmatch : ∀ seg ∈ segs, segMatch seg = true :=
      fun seg hs => (segMatch_iff_segSpec seg).mpr (hall seg hs)
    rw [pathMatch,
      splitOnColon_joinColon segs hne (fun seg hs => segMatch_no_colon seg (hmatch seg hs))]
    exact List.all_eq_true.mpr hmatch

/-- Claim C1 counterexample: on the path ":foo", whose only separator is
its first character, `Path.Name` returns the stored value with success
`true`, not the empty name with `false` as the claim states. -/
theorem C1_counterexample :
    (New (':' :: "foo".data)).Name = ((':' :: "foo".data : Name), true) ∧
      (New (':' :: "foo".data)).Name ≠ (([] : Name), false) := by
  decide

/-- Claim C1 (amended): `Path.Name` returns the stored string as a name
with success true exactly when the value contains no separator at all, or
its only separator is the leading character (so the parent computed by
`Split` is empty); in every other case it returns the empty name and
false. -/
theorem C1_theorem (p : Path) :
    p.Name =
      (if nameSucceeds p.value then ((p.value : Name), true) else (([] : Name), false)) := by
  obtain ⟨v⟩ := p
  cases hs : splitLastColon v with
  | none =>
    have hv : ':' ∉ v := (splitLastColon_eq_none v).mp hs
    simp [Path.Name, Path.Parent, Path.Split, hs, nameSucceeds, hv]
  | some p =>
    obtain ⟨b, a⟩ := p
    obtain ⟨hv, hna⟩ := splitLastColon_eq_some v b a hs
    cases b with
    | nil =>
      subst hv
      rw [List.nil_append] at hs ⊢
      simp [Path.Name, Path.Parent, Path.Split, hs, nameSucceeds, hna]
    | cons x b' =>
      subst hv
      have hmem2 : ':' ∈ b' ++ ':' :: a :=
        List.mem_append.mpr (Or.inr (List.mem_cons_self _ _))
      have hmem : ':' ∈ x :: (b' ++ ':' :: a) := List.mem_cons_of_mem _ hmem2
      rw [List.cons_append] at hs
      simp [Path.Name, Path.Parent, Path.Split, hs, nameSucceeds, hmem, hmem2]

/-- Claim C2 counterexample: a single segment of 64 letters satisfies the
claim's character-shape conditions (all characters lower-case
alphanumeric) and is longer than 63 characters, yet `Path.IsValid` rejects
it — segment length is capped at this layer after all. -/
theorem C2_counterexample :
    (List.replicate 64 'a').all isLowerAlnum = true ∧
      63 < (List.replicate 64 'a').length ∧
      Path.IsValid (New (List.replicate 64 'a')) = false := by
  decide

/-- Claim C2 (amended): `Path.IsValid` accepts every non-empty list of
colon-separated segments whose segments have length 1 to 63, start and end
with a lower-case letter or digit, and have interior characters drawn from
lower-case letters, digits and hyphens; segments longer than 63 characters
are rejected by the per-segment grammar. -/
theorem C2_theorem (segs : List (List Char)) (hne : segs ≠ [])
    (hall : ∀ seg ∈ segs, segSpec seg = true) :
    Path.IsValid (New (joinColon segs)) = true := by
  rw [Path.IsValid]
  have h : pathMatch (joinColon segs) = true := (pathMatch_iff _).mpr ⟨segs, hne, rfl, hall⟩
  rw [show (New (joinColon segs)).value = joinColon segs from rfl, h, Bool.or_true]

theorem C2_witness :
    Path.IsValid (New (joinColon ["elephant".data, List.replicate 63 'a'])) = true :=
  C2_theorem ["elephant".data, List.replicate 63 'a'] (by decide) (by decide)

/-- Claim C3: `Path.IsValid` holds exactly for the wildcard or a non-empty
colon-separated sequence of grammar-conforming segments (no empty segment
anywhere), and the seven literal cases evaluate as listed. -/
theorem C3_theorem :
    (∀ p : Path, Path.IsValid p = true ↔
        (p = Wildcard ∨ ∃ segs : List (List Char), segs ≠ [] ∧
          p.value = joinColon segs ∧ ∀ seg ∈ segs, segSpec seg = true)) ∧
      Path.IsValid (New []) = false ∧
      Path.IsValid (New "*".data) = true ∧
      Path.IsValid (New "elephant".data) = true ∧
      Path.IsValid (New "elephant:foo:bar".data) = true ∧
      Path.IsValid (New "elephant:".data) = false ∧
      Path.IsValid (New ":elephant".data) = false ∧
      Path.IsValid (New "elephant::foo".data) = false := by
  refine ⟨?_, by decide, by decide, by decide, by decide, by decide, by decide, by decide⟩
  intro p
  rw [Path.IsValid, Bool.or_eq_true, decide_eq_true_eq]
  exact or_congr Iff.rfl (pathMatch_iff p.value)

theorem C3_witness : Path.IsValid (New "elephant:foo".data) = true :=
  (C3_theorem.1 (New "elephant:foo".data)).mpr
    (Or.inr ⟨["elephant".data, "foo".data], by decide, by decide, by decide⟩)

/-- Claim C4: `Split` cuts at the last separator — with no separator it
returns (empty path, whole value); with last separator between `a` and `b`
it returns (path of `a`, `b`) — and the five literal cases hold, with
consecutive separators preserved literally. -/
theorem C4_theorem :
    (∀ s : List Char, ':' ∉ s → (New s).Split = (New [], s)) ∧
      (∀ a b : List Char, ':' ∉ b → (New (a ++ ':' :: b)).Split = (New a, b)) ∧
      (New []).Split = (New [], []) ∧
      (New "foo".data).Split = (New [], "foo".data) ∧
      (New "foo:bar".data).Split = (New "foo".data, "bar".data) ∧
      (New "foo:bar:baz".data).Split = (New "foo:bar".data, "baz".data) ∧
      (New "foo::baz".data).Split = (New "foo:".data, "baz".data) := by
  refine ⟨?_, ?_, by decide, by decide, by decide, by decide, by decide⟩
  · intro s hs
    simp [Path.Split, New, (splitLastColon_eq_none s).mpr hs]
  · intro a b hb
    simp [Path.Split, New, splitLastColon_append a b hb]

theorem C4_witness : (New "bar".data).Split = (New [], "bar".data) :=
  C4_theorem.1 "bar".data (by decide)

/-- Claim C5: `Join` then `Split` is a left inverse whenever the appended
segment contains no separator, including when the receiving path is
empty. -/
theorem C5_theorem (p : Path) (seg : List Char) (h : ':' ∉ seg) :
    (p.Join seg).Split = (p, seg) := by
  obtain ⟨v⟩ := p
  rw [Path.Join]
  by_cases hv : v = []
  · rw [if_pos hv]
    simp [Path.Split, (splitLastColon_eq_none seg).mpr h, hv]
  · rw [if_neg hv]
    simp [Path.Split, splitLastColon_append v seg h]

theorem C5_witness :
    ((New "foo".data).Join "bar".data).Split = (New "foo".data, "bar".data) :=
  C5_theorem (New "foo".data) "bar".data (by decide)

theorem strStartsWith_iff (b a : List Char) :
    strStartsWith b a = true ↔ ∃ t, a ++ t = b := by
  induction a generalizing b with
  | nil =>
    constructor
    · intro _
      exact ⟨b, rfl⟩
    · intro _
      cases b <;> rfl
  | cons c a' ih =>
    cases b with
    | nil =>
      constructor
      · intro h
        simp [strStartsWith] at h
      · rintro ⟨t, ht⟩
        exact absurd ht (by simp)
    | cons d b' =>
      rw [strStartsWith, Bool.and_eq_true, decide_eq_true_eq, ih b']
      constructor
      · rintro ⟨rfl, t, rfl⟩
        exact ⟨t, rfl⟩
      · rintro ⟨t, ht⟩
        injection ht with h1 h2
        exact ⟨h1.symm, t, h2⟩

/-- Claim C6: `HasPrefix` is a raw string prefix test — true exactly when
the other path's value followed by some suffix equals this path's value —
with no segment-boundary awareness; in particular "elephant2" has prefix
"elephant". -/
theorem C6_theorem :
    (∀ p q : Path, Path.HasPrefix p q = true ↔ ∃ t, q.value ++ t = p.value) ∧
      Path.HasPrefix (New "elephant2".data) (New "elephant".data) = true := by
  refine ⟨?_, by decide⟩
  intro p q
  exact strStartsWith_iff p.value q.value

/-- Claim C7: `Name.IsValid` accepts exactly the strings of length 2 to 63
whose first and last characters are lower-case letters or digits and whose
interior characters are lower-case letters, digits or hyphens; in
particular a single character and a 64-character string are rejected. -/
theorem C7_theorem :
    (∀ n : Name, Name.IsValid n = true ↔ nameSpec n = true) ∧
      Name.IsValid ['a'] = false ∧
      Name.IsValid (List.replicate 64 'a') = false := by
  refine ⟨?_, by decide, by decide⟩
  intro n
  exact clusterNameMatch_iff_nameSpec n

/-- Claim C8: when the annotations map has no entry for the reserved key
"kcp.dev/cluster" — in particular when it is empty — `From` yields a name
whose `Empty` is true; absence is never signalled as an error. -/
theorem C8_theorem (obj : Object)
    (h : obj.annots.lookup AnnotationKey = none) :
    Name.Empty (From obj) = true := by
  rw [From, mapGet, h]
  rfl

theorem C8_witness : Name.Empty (From ⟨[]⟩) = true :=
  C8_theorem ⟨[]⟩ rfl

/-- Claim C9: every string accepted by the name grammar is also accepted,
as a single-segment path, by the path grammar: a valid `Name` lifts to a
valid `Path`. -/
theorem C9_theorem (n : Name) (h : Name.IsValid n = true) :
    Path.IsValid (Name.Path n) = true := by
  have hseg : segMatch n = true := clusterNameMatch_segMatch n h
  have hnc : ':' ∉ n := segMatch_no_colon n hseg
  have hp : pathMatch n = true := by
    rw [pathMatch, splitOnColon_no_colon n hnc]
    simp [hseg]
  simp only [Path.IsValid, Name.Path, New]
  rw [hp, Bool.or_true]

theorem C9_witness : Path.IsValid (Name.Path "ab".data) = true :=
  C9_theorem "ab".data (by decide)

/-- Claim C10: lowering the wildcard path succeeds, because "*" contains
no separator, and the resulting name "*" fails the name grammar. -/
theorem C10_theorem :
    Path.Name Wildcard = ((['*'] : Name), true) ∧ Name.IsValid ['*'] = false := by
  decide


end Logicalcluster
